import Mathlib

/-!
Shallow embedding of the 72x72 grid A* pathfinding program (`pyfield.py`)
and verification of its specification.

The program's data model: grid cells are integer pairs; physical (GPS)
coordinates are millimeters on a field of side 3600 mm centered at the
origin; every physical quantity appearing in the program is an exact
multiple of 25 mm (cell centers sit at odd multiples of 25 mm), so the
float arithmetic of the source is exact and is embedded here over `ℤ`
(and `ℚ` where a parameter such as an edge margin is a free real input).

The A* search (`a_star`) is embedded with an explicit fuel parameter: the
outer `Option` is `none` exactly when the fuel runs out (or when a
`g_score` lookup that would raise a `KeyError` in Python fails), the inner
`Option` is the source's `None` ("no path found").  The frontier is a list
of `(priority, cell)` entries; popping takes the least entry under the
lexicographic order on `(priority, x, y)`, exactly the order `heapq` uses
on the source's `(priority, (x, y))` tuples, and the entries in a run are
pairwise distinct tuples, so this models the heap faithfully.
-/

set_option maxRecDepth 4000

namespace PyField

abbrev Cell := ℤ × ℤ

def GRID_SIZE : ℤ := 72

def CELL_MM : ℤ := 50

def FIELD_HALF_MM : ℤ := 1800

def COLLISION_RADIUS_MM : ℤ := 200

def clamp (val lo hi : ℤ) : ℤ := max lo (min hi val)

/-- `gps_to_grid(x_mm, y_mm)`: floor-divide the shifted coordinates by the
cell size (Python `//` is floor division, which for the positive divisor
`CELL_MM` coincides with `ℤ`-division `/`), then clamp into `[0, 71]`. -/
def gps_to_grid (x_mm y_mm : ℤ) : Cell :=
  (clamp ((x_mm + FIELD_HALF_MM) / CELL_MM) 0 (GRID_SIZE - 1),
   clamp ((FIELD_HALF_MM - y_mm) / CELL_MM) 0 (GRID_SIZE - 1))

/-- The unclamped floor divisions inside `gps_to_grid`. -/
def gps_to_grid_raw (x_mm y_mm : ℤ) : Cell :=
  ((x_mm + FIELD_HALF_MM) / CELL_MM, (FIELD_HALF_MM - y_mm) / CELL_MM)

/-- `grid_to_gps(gx, gy)`: center of the cell, `(gx + 0.5) * 50 - 1800`
millimeters; exact over `ℤ` because `CELL_MM` is even. -/
def grid_to_gps (gx gy : ℤ) : ℤ × ℤ :=
  (gx * CELL_MM + CELL_MM / 2 - FIELD_HALF_MM,
   FIELD_HALF_MM - (gy * CELL_MM + CELL_MM / 2))

/-- Manhattan-distance heuristic of the source. -/
def heuristic (a b : Cell) : ℕ := (a.1 - b.1).natAbs + (a.2 - b.2).natAbs

def inBounds (c : Cell) : Prop :=
  0 ≤ c.1 ∧ c.1 < GRID_SIZE ∧ 0 ≤ c.2 ∧ c.2 < GRID_SIZE

instance (c : Cell) : Decidable (inBounds c) := by
  unfold inBounds; infer_instance

def adjacent (a b : Cell) : Prop :=
  (a.1 - b.1).natAbs + (a.2 - b.2).natAbs = 1

instance (a b : Cell) : Decidable (adjacent a b) := by
  unfold adjacent; infer_instance

/-- The four candidate neighbors, in the source's order. -/
def neighborsOf (c : Cell) : List Cell :=
  [(c.1 + 1, c.2), (c.1 - 1, c.2), (c.1, c.2 + 1), (c.1, c.2 - 1)]

/-- Strict comparison on heap entries: lexicographic on
`(priority, (x, y))`, as Python compares the pushed tuples. -/
def entryLt (a b : ℕ × Cell) : Bool :=
  a.1 < b.1 ∨ (a.1 = b.1 ∧ (a.2.1 < b.2.1 ∨ (a.2.1 = b.2.1 ∧ a.2.2 < b.2.2)))

def minEntry (x : ℕ × Cell) (l : List (ℕ × Cell)) : ℕ × Cell :=
  l.foldl (fun a b => if entryLt b a then b else a) x

/-- Remove one occurrence of entry `e` (the one the heap pop consumes). -/
def eraseEntry (l : List (ℕ × Cell)) (e : ℕ × Cell) : List (ℕ × Cell) :=
  @List.erase _ instBEqOfDecidableEq l e

/-- Pop the least entry of the frontier (the element `heapq.heappop`
returns), together with the remaining frontier. -/
def popMin (l : List (ℕ × Cell)) : Option ((ℕ × Cell) × List (ℕ × Cell)) :=
  match l with
  | [] => none
  | x :: xs => some (minEntry x xs, eraseEntry l (minEntry x xs))

/-- Mutable state of the search: the frontier `open_set`, the map
`g_score`, and the predecessor map `came_from`. -/
structure AState where
  openL : List (ℕ × Cell)
  gS : Cell → Option ℕ
  cf : Cell → Option Cell

/-- Push neighbor `n` with tentative g-value `gcur + 1`: update
`g_score`, enqueue `(tentative + h, n)`, and set `came_from`. -/
def pushState (goal current : Cell) (gcur : ℕ) (s : AState) (n : Cell) : AState :=
  { openL := s.openL ++ [(gcur + 1 + heuristic n goal, n)],
    gS := Function.update s.gS n (some (gcur + 1)),
    cf := Function.update s.cf n (some current) }

/-- `(nx, ny) not in g_score or tentative_g < g_score[(nx, ny)]`. -/
def relaxTest (o : Option ℕ) (tg : ℕ) : Bool :=
  match o with
  | none => true
  | some old => tg < old

/-- The body of the `for nx, ny in neighbors` loop for one neighbor. -/
def relaxOne (goal current : Cell) (obst : List Cell) (gcur : ℕ)
    (s : AState) (n : Cell) : AState :=
  if inBounds n ∧ n ∉ obst then
    if relaxTest (s.gS n) (gcur + 1) then pushState goal current gcur s n else s
  else s

/-- Relax all four neighbors of `current`, in the source's order. -/
def expand (goal current : Cell) (obst : List Cell) (gcur : ℕ) (s : AState) : AState :=
  (neighborsOf current).foldl (relaxOne goal current obst gcur) s

/-- Path reconstruction: walk `came_from` links from the goal, then append
`start` and reverse (here: accumulate in reversed order directly).  The
fuel only guards against cycles that a run never creates. -/
def reconstruct (start : Cell) (cf : Cell → Option Cell) :
    ℕ → Cell → List Cell → Option (List Cell)
  | fuel, current, acc =>
    match cf current with
    | none => some (start :: acc)
    | some p =>
      match fuel with
      | 0 => none
      | fuel' + 1 => reconstruct start cf fuel' p (current :: acc)

/-- The `while open_set` loop.  Outer `none`: out of fuel, or a `g_score`
lookup the source performs would raise (never happens in a real run);
inner `none`: frontier exhausted, no path. -/
def aStarLoop (start goal : Cell) (obst : List Cell) :
    ℕ → AState → Option (Option (List Cell))
  | 0, _ => none
  | fuel + 1, s =>
    match popMin s.openL with
    | none => some none
    | some (e, rest) =>
      if e.2 = goal then
        match s.gS e.2 with
        | none => none
        | some gv =>
          match reconstruct start s.cf (gv + 1) e.2 [] with
          | none => none
          | some p => some (some p)
      else
        match s.gS e.2 with
        | none => none
        | some gcur =>
          aStarLoop start goal obst fuel
            (expand goal e.2 obst gcur { openL := rest, gS := s.gS, cf := s.cf })

/-- Initial state: `open_set = [(0, start)]`, `g_score = {start: 0}`. -/
def initState (start : Cell) : AState :=
  { openL := [(0, start)],
    gS := Function.update (fun _ => none) start (some 0),
    cf := fun _ => none }

/-- `a_star(start, goal, obstacles)` with explicit fuel. -/
def a_star (fuel : ℕ) (start goal : Cell) (obst : List Cell) :
    Option (Option (List Cell)) :=
  aStarLoop start goal obst fuel (initState start)

/-! ### Obstacle inflation (`build_inflated_obstacles`) -/

/-- The list comprehension `[(x, y) for y in range(72) for x in range(72)
if grid[y][x] == 1]`. -/
def base_cells (grid : Cell → Bool) : List Cell :=
  (List.range 72).flatMap fun (y : ℕ) =>
    ((List.range 72).map fun (x : ℕ) => ((x : ℤ), (y : ℤ))).filter fun c => grid c

/-- `cell_radius = ceil(COLLISION_RADIUS_MM / CELL_MM)`, written as the
integer ceiling division (exact here: both quantities are positive
integers, and `200 / 50` divides evenly to `4`). -/
def cell_radius : ℤ := (COLLISION_RADIUS_MM + CELL_MM - 1) / CELL_MM

/-- The clamped square window of cells scanned around base cell `o`. -/
def window_cells (o : Cell) : List Cell :=
  (List.range (clamp (o.2 + cell_radius) 0 (GRID_SIZE - 1)
      - clamp (o.2 - cell_radius) 0 (GRID_SIZE - 1) + 1).toNat).flatMap fun (j : ℕ) =>
    (List.range (clamp (o.1 + cell_radius) 0 (GRID_SIZE - 1)
        - clamp (o.1 - cell_radius) 0 (GRID_SIZE - 1) + 1).toNat).map fun (i : ℕ) =>
      (clamp (o.1 - cell_radius) 0 (GRID_SIZE - 1) + (i : ℤ),
       clamp (o.2 - cell_radius) 0 (GRID_SIZE - 1) + (j : ℤ))

/-- Squared Euclidean distance between two physical points (mm²). -/
def dist2_mm (p q : ℤ × ℤ) : ℤ := (p.1 - q.1) ^ 2 + (p.2 - q.2) ^ 2

/-- Cells of the window of `o` whose centers pass the squared-distance
test against the center of `o`. -/
def inflate_one (o : Cell) : List Cell :=
  (window_cells o).filter fun c =>
    dist2_mm (grid_to_gps c.1 c.2) (grid_to_gps o.1 o.2)
      ≤ COLLISION_RADIUS_MM * COLLISION_RADIUS_MM

/-- `build_inflated_obstacles()`: union over base cells of the disk of
radius `COLLISION_RADIUS_MM` around each base cell's center (membership in
the returned list is the set the source builds). -/
def build_inflated_obstacles (grid : Cell → Bool) : List Cell :=
  (base_cells grid).flatMap inflate_one

/-! ### Edge margin (`add_edge_margin`) -/

/-- `add_edge_margin(margin_mm)`: mark every cell whose center is strictly
within `margin_mm` of a field wall; other cells keep their value. -/
def add_edge_margin (margin_mm : ℚ) (grid : Cell → Bool) : Cell → Bool :=
  fun c =>
    if inBounds c ∧
        ((|((grid_to_gps c.1 c.2).1 : ℚ)| > (FIELD_HALF_MM : ℚ) - margin_mm) ∨
         (|((grid_to_gps c.1 c.2).2 : ℚ)| > (FIELD_HALF_MM : ℚ) - margin_mm)) then
      true
    else grid c

/-- Distance (mm) from the center of cell `c` to the nearest field wall. -/
def boundary_dist (c : Cell) : ℚ :=
  (FIELD_HALF_MM : ℚ) -
    max |((grid_to_gps c.1 c.2).1 : ℚ)| |((grid_to_gps c.1 c.2).2 : ℚ)|

/-! ### Multi-waypoint stitching (`compute_total_path`) -/

/-- The `for wp in waypoints + [goal]` loop.  Result `none`: some leg ran
out of fuel (artifact of the embedding); `some []`: a leg failed and the
route is discarded; otherwise the stitched route. -/
def compute_total_path_go (fuel : ℕ) (obst : List Cell) :
    Cell → List Cell → List Cell → Option (List Cell)
  | _, [], full => some full
  | current, wp :: rest, full =>
    match a_star fuel current wp obst with
    | none => none
    | some none => some []
    | some (some seg) =>
      if seg = [] then some []
      else
        compute_total_path_go fuel obst wp rest
          (full ++ if full = [] then seg else seg.tail)

/-- `compute_total_path()`: rebuild the inflated obstacles, then stitch
the legs `start → waypoints… → goal`; the previous route (`oldPath`) is
always discarded. -/
def compute_total_path (fuel : ℕ) (start goal : Option Cell) (wps : List Cell)
    (grid : Cell → Bool) (_oldPath : List Cell) : Option (List Cell) :=
  match start, goal with
  | some s, some g =>
    compute_total_path_go fuel (build_inflated_obstacles grid) s (wps ++ [g]) []
  | _, _ => some []

/-- The leg endpoints `start → waypoints[0] → … → goal`. -/
def legs (s : Cell) (wps : List Cell) (g : Cell) : List (Cell × Cell) :=
  (s :: wps).zip (wps ++ [g])

/-! ### Specification-side path predicate -/

/-- A sequence the planner's contract calls valid: starts at `a`, ends at
`b`, consecutive cells 4-adjacent, and every cell after the head in
bounds and unblocked. -/
def ValidSeq (a : Cell) (obst : List Cell) (q : List Cell) (b : Cell) : Prop :=
  q.head? = some a ∧ q.getLast? = some b ∧ q.Chain' adjacent ∧
    ∀ c ∈ q.tail, inBounds c ∧ c ∉ obst

instance (a : Cell) (obst : List Cell) (q : List Cell) (b : Cell) :
    Decidable (ValidSeq a obst q b) :=
  decidable_of_iff (q.head? = some a ∧ q.getLast? = some b ∧ q.Chain' adjacent ∧
    ∀ c ∈ q.tail, inBounds c ∧ c ∉ obst) Iff.rfl

/-! ### The heap order on frontier entries -/

lemma entryLt_irrefl (a : ℕ × Cell) : entryLt a a = false := by
  obtain ⟨a1, a2, a3⟩ := a
  simp [entryLt]

lemma entryLt_asymm_eq {a b : ℕ × Cell} (h1 : entryLt a b = false)
    (h2 : entryLt b a = false) : a = b := by
  obtain ⟨a1, a2, a3⟩ := a
  obtain ⟨b1, b2, b3⟩ := b
  simp [entryLt] at h1 h2
  simp only [Prod.mk.injEq]
  omega

lemma entryLt_trans {a b c : ℕ × Cell} (h1 : entryLt a b = true)
    (h2 : entryLt b c = true) : entryLt a c = true := by
  obtain ⟨a1, a2, a3⟩ := a
  obtain ⟨b1, b2, b3⟩ := b
  obtain ⟨c1, c2, c3⟩ := c
  simp [entryLt] at h1 h2 ⊢
  omega

lemma entryLt_le_trans {a b c : ℕ × Cell} (h1 : entryLt b a = false)
    (h2 : entryLt c b = false) : entryLt c a = false := by
  obtain ⟨a1, a2, a3⟩ := a
  obtain ⟨b1, b2, b3⟩ := b
  obtain ⟨c1, c2, c3⟩ := c
  simp [entryLt] at h1 h2 ⊢
  omega

lemma minEntry_spec (l : List (ℕ × Cell)) (x : ℕ × Cell) :
    minEntry x l ∈ x :: l ∧ ∀ y ∈ x :: l, entryLt y (minEntry x l) = false := by
  induction l generalizing x with
  | nil =>
    refine ⟨by simp [minEntry], ?_⟩
    intro y hy
    simp at hy
    subst hy
    simp [minEntry, entryLt_irrefl]
  | cons b t ih =>
    have hfold : minEntry x (b :: t) = minEntry (if entryLt b x then b else x) t := rfl
    obtain ⟨ihm, ihle⟩ := ih (if entryLt b x then b else x)
    rw [hfold]
    constructor
    · rcases List.mem_cons.mp ihm with h | h
      · rw [h]
        by_cases hbx : entryLt b x <;> simp [hbx]
      · exact List.mem_cons_of_mem _ (List.mem_cons_of_mem _ h)
    · intro y hy
      rcases List.mem_cons.mp hy with hyx | hy2
      · rw [hyx]
        by_cases hbx : entryLt b x
        · rw [if_pos hbx]
          have hzM := ihle _ (List.mem_cons_self _ _)
          rw [if_pos hbx] at hzM
          by_cases hxM : entryLt x (minEntry b t) = true
          · exact absurd (entryLt_trans hbx hxM) (by simp [hzM])
          · exact Bool.eq_false_iff.mpr hxM
        · rw [if_neg hbx]
          have := ihle _ (List.mem_cons_self _ _)
          rwa [if_neg hbx] at this
      · rcases List.mem_cons.mp hy2 with hyb | hy3
        · rw [hyb]
          by_cases hbx : entryLt b x
          · rw [if_pos hbx]
            have := ihle _ (List.mem_cons_self _ _)
            rwa [if_pos hbx] at this
          · rw [if_neg hbx]
            have hxM := ihle _ (List.mem_cons_self _ _)
            rw [if_neg hbx] at hxM
            exact entryLt_le_trans hxM (Bool.eq_false_iff.mpr hbx)
        · exact ihle y (List.mem_cons_of_mem _ hy3)

lemma popMin_eq_none_iff (l : List (ℕ × Cell)) : popMin l = none ↔ l = [] := by
  cases l <;> simp [popMin]

lemma popMin_spec {l : List (ℕ × Cell)} {e : ℕ × Cell} {r : List (ℕ × Cell)}
    (h : popMin l = some (e, r)) :
    e ∈ l ∧ (∀ y ∈ l, entryLt y e = false) ∧ r = eraseEntry l e := by
  cases l with
  | nil => simp [popMin] at h
  | cons x xs =>
    simp only [popMin, Option.some.injEq, Prod.mk.injEq] at h
    obtain ⟨he, hr⟩ := h
    obtain ⟨hm, hle⟩ := minEntry_spec xs x
    exact ⟨he ▸ hm, fun y hy => he ▸ hle y hy, by rw [← he, ← hr]⟩

lemma popMin_perm {l l' : List (ℕ × Cell)} (h : l.Perm l') :
    (popMin l = none ∧ popMin l' = none) ∨
    ∃ e r r', popMin l = some (e, r) ∧ popMin l' = some (e, r') ∧ r.Perm r' := by
  cases hl : popMin l with
  | none =>
    left
    have h0 : l = [] := (popMin_eq_none_iff l).mp hl
    subst h0
    exact ⟨rfl, (popMin_eq_none_iff l').mpr h.symm.eq_nil⟩
  | some er =>
    obtain ⟨e, r⟩ := er
    obtain ⟨hm, hle, hr⟩ := popMin_spec hl
    right
    cases hl2 : popMin l' with
    | none =>
      exfalso
      have h0 : l' = [] := (popMin_eq_none_iff l').mp hl2
      subst h0
      exact absurd (h.mem_iff.mp hm) (List.not_mem_nil e)
    | some er2 =>
      obtain ⟨e2, r2⟩ := er2
      obtain ⟨hm2, hle2, hr2⟩ := popMin_spec hl2
      have he : e = e2 :=
        entryLt_asymm_eq (hle2 e (h.mem_iff.mp hm)) (hle e2 (h.mem_iff.mpr hm2))
      subst he
      refine ⟨e, r, r2, rfl, rfl, ?_⟩
      rw [hr, hr2]
      exact h.erase e

lemma eraseEntry_cons (b : ℕ × Cell) (t : List (ℕ × Cell)) (e : ℕ × Cell) :
    eraseEntry (b :: t) e = if b = e then t else b :: eraseEntry t e := by
  have hbeq : ∀ a b : ℕ × Cell, (@BEq.beq _ instBEqOfDecidableEq a b) = decide (a = b) :=
    fun a b => rfl
  by_cases hbe : b = e <;>
    simp [eraseEntry, List.erase_cons, hbeq, hbe]

lemma mem_of_mem_eraseEntry {l : List (ℕ × Cell)} {e x : ℕ × Cell}
    (h : x ∈ eraseEntry l e) : x ∈ l := by
  induction l with
  | nil => simp [eraseEntry] at h
  | cons b t ih =>
    rw [eraseEntry_cons] at h
    by_cases hbe : b = e
    · rw [if_pos hbe] at h
      exact List.mem_cons_of_mem _ h
    · rw [if_neg hbe] at h
      rcases List.mem_cons.mp h with h1 | h2
      · exact h1 ▸ List.mem_cons_self _ _
      · exact List.mem_cons_of_mem _ (ih h2)

lemma mem_eraseEntry_of_ne {l : List (ℕ × Cell)} {x e : ℕ × Cell} (hne : x ≠ e) :
    x ∈ eraseEntry l e ↔ x ∈ l := by
  induction l with
  | nil => simp [eraseEntry]
  | cons b t ih =>
    rw [eraseEntry_cons]
    by_cases hbe : b = e
    · rw [if_pos hbe]
      constructor
      · exact List.mem_cons_of_mem _
      · intro h
        rcases List.mem_cons.mp h with h1 | h2
        · exact absurd (h1.trans hbe) hne
        · exact h2
    · rw [if_neg hbe]
      simp only [List.mem_cons, ih]

lemma length_eraseEntry {l : List (ℕ × Cell)} {e : ℕ × Cell} (he : e ∈ l) :
    (eraseEntry l e).length + 1 = l.length := by
  induction l with
  | nil => simp at he
  | cons b t ih =>
    rw [eraseEntry_cons]
    by_cases hbe : b = e
    · rw [if_pos hbe]
      simp
    · rw [if_neg hbe]
      rcases List.mem_cons.mp he with h1 | h2
      · exact absurd h1.symm hbe
      · have := ih h2
        simp only [List.length_cons]
        omega

/-! ### The search result depends only on the multiset of frontier entries -/

/-- Two states with the same score and predecessor maps whose frontiers
hold the same entries (in any arrangement). -/
def statePerm (s t : AState) : Prop :=
  s.openL.Perm t.openL ∧ s.gS = t.gS ∧ s.cf = t.cf

lemma relaxOne_perm {s t : AState} (goal current : Cell) (obst : List Cell)
    (gcur : ℕ) (n : Cell) (h : statePerm s t) :
    statePerm (relaxOne goal current obst gcur s n) (relaxOne goal current obst gcur t n) := by
  obtain ⟨ho, hg, hc⟩ := h
  unfold relaxOne pushState
  rw [hg, hc]
  by_cases hn : inBounds n ∧ n ∉ obst
  · rw [if_pos hn, if_pos hn]
    by_cases ht : relaxTest (t.gS n) (gcur + 1) = true
    · rw [if_pos ht, if_pos ht]
      exact ⟨ho.append_right _, rfl, rfl⟩
    · rw [if_neg ht, if_neg ht]
      exact ⟨ho, hg, hc⟩
  · rw [if_neg hn, if_neg hn]
    exact ⟨ho, hg, hc⟩

lemma foldl_relax_perm {s t : AState} (goal current : Cell) (obst : List Cell)
    (gcur : ℕ) (ns : List Cell) (h : statePerm s t) :
    statePerm (ns.foldl (relaxOne goal current obst gcur) s)
      (ns.foldl (relaxOne goal current obst gcur) t) := by
  induction ns generalizing s t with
  | nil => exact h
  | cons n ns ih => exact ih (relaxOne_perm goal current obst gcur n h)

lemma expand_perm {s t : AState} (goal current : Cell) (obst : List Cell)
    (gcur : ℕ) (h : statePerm s t) :
    statePerm (expand goal current obst gcur s) (expand goal current obst gcur t) :=
  foldl_relax_perm goal current obst gcur (neighborsOf current) h

lemma aStarLoop_congr (start goal : Cell) (obst : List Cell) :
    ∀ (fuel : ℕ) (s t : AState), statePerm s t →
      aStarLoop start goal obst fuel s = aStarLoop start goal obst fuel t := by
  intro fuel
  induction fuel with
  | zero => intro s t _; rfl
  | succ f ih =>
    intro s t hst
    obtain ⟨ho, hg, hc⟩ := hst
    show (match popMin s.openL with
      | none => some none
      | some (e, rest) => _) = (match popMin t.openL with
      | none => some none
      | some (e, rest) => _)
    rcases popMin_perm ho with ⟨h1, h2⟩ | ⟨e, r, r2, h1, h2, hrr⟩
    · rw [h1, h2]
    · rw [h1, h2]
      simp only
      rw [hg, hc]
      by_cases hgoal : e.2 = goal
      · rw [if_pos hgoal, if_pos hgoal]
      · rw [if_neg hgoal, if_neg hgoal]
        cases t.gS e.2 with
        | none => rfl
        | some gcur =>
          exact ih _ _ (expand_perm goal e.2 obst gcur ⟨hrr, rfl, rfl⟩)

/-- C7: `find_path` is deterministic — as a pure function it returns equal
sequences on identical inputs, and moreover the result is invariant under
any rearrangement of the frontier, because each pop takes the unique least
entry under the `(f, x, y)` lexicographic order (Python's tuple order on
the heap), so the heap's internal layout cannot influence the returned
path. -/
theorem a_star_deterministic :
    (∀ fuel (a b : Cell) (obst : List Cell), a_star fuel a b obst = a_star fuel a b obst) ∧
    (∀ fuel (start goal : Cell) (obst : List Cell) (s t : AState),
      s.gS = t.gS → s.cf = t.cf → s.openL.Perm t.openL →
      aStarLoop start goal obst fuel s = aStarLoop start goal obst fuel t) :=
  ⟨fun _ _ _ _ => rfl,
   fun fuel start goal obst s t hg hc ho => aStarLoop_congr start goal obst fuel s t ⟨ho, hg, hc⟩⟩

/-- Witness for C7 at a concrete pair of states whose frontiers are
rearrangements of each other. -/
theorem a_star_deterministic_witness :
    aStarLoop (0, 0) (2, 0) [] 9
      { openL := [(7, ((5, 5) : Cell)), (0, ((0, 0) : Cell))],
        gS := Function.update (fun _ => none) ((0, 0) : Cell) (some 0),
        cf := fun _ => none } =
    aStarLoop (0, 0) (2, 0) [] 9
      { openL := [(0, ((0, 0) : Cell)), (7, ((5, 5) : Cell))],
        gS := Function.update (fun _ => none) ((0, 0) : Cell) (some 0),
        cf := fun _ => none } :=
  a_star_deterministic.2 9 (0, 0) (2, 0) [] _ _ rfl rfl (by decide)

/-! ### C6: the cell-center round trip -/

/-- C6: for every valid cell, converting to GPS millimeters and back
returns the same cell, the clamping being a no-op (the raw floor
divisions already land in `[0, 71]`). -/
theorem gps_grid_round_trip (gx gy : ℤ) (h1 : 0 ≤ gx) (h2 : gx < GRID_SIZE)
    (h3 : 0 ≤ gy) (h4 : gy < GRID_SIZE) :
    gps_to_grid (grid_to_gps gx gy).1 (grid_to_gps gx gy).2 = (gx, gy) ∧
    gps_to_grid_raw (grid_to_gps gx gy).1 (grid_to_gps gx gy).2 = (gx, gy) := by
  have h50 : (50 : ℤ) ≠ 0 := by norm_num
  have key : ∀ g : ℤ, (25 + g * 50) / 50 = g := by
    intro g
    rw [Int.add_mul_ediv_right 25 g h50]
    norm_num
  have ex : (grid_to_gps gx gy).1 + FIELD_HALF_MM = 25 + gx * 50 := by
    simp only [grid_to_gps, CELL_MM, FIELD_HALF_MM]
    omega
  have ey : FIELD_HALF_MM - (grid_to_gps gx gy).2 = 25 + gy * 50 := by
    simp only [grid_to_gps, CELL_MM, FIELD_HALF_MM]
    omega
  rw [GRID_SIZE] at h2 h4
  constructor
  · simp only [gps_to_grid]
    rw [ex, ey]
    simp only [CELL_MM, key, clamp, GRID_SIZE, Prod.mk.injEq]
    omega
  · simp only [gps_to_grid_raw]
    rw [ex, ey]
    simp only [CELL_MM, key]

/-- Witness for C6 at corner and interior cells. -/
theorem gps_grid_round_trip_witness :
    gps_to_grid (grid_to_gps 0 71).1 (grid_to_gps 0 71).2 = (0, 71) ∧
    gps_to_grid (grid_to_gps 10 20).1 (grid_to_gps 10 20).2 = (10, 20) :=
  ⟨(gps_grid_round_trip 0 71 (by norm_num) (by decide) (by norm_num) (by decide)).1,
   (gps_grid_round_trip 10 20 (by norm_num) (by decide) (by norm_num) (by decide)).1⟩

/-! ### C8: degenerate legs -/

/-- C8: `find_path(a, a, blocked)` returns the single-cell path `[a]` for
every cell `a` and every blocked set, even when `a` itself is blocked: the
loop ends on the first pop because `current == goal`. -/
theorem a_star_degenerate (fuel : ℕ) (hf : 1 ≤ fuel) (a : Cell) (obst : List Cell) :
    a_star fuel a a obst = some (some [a]) := by
  obtain ⟨f, rfl⟩ : ∃ f, fuel = f + 1 := ⟨fuel - 1, by omega⟩
  have hpop : popMin [(0, a)] = some ((0, a), []) := by
    simp only [popMin, minEntry, List.foldl_nil, eraseEntry]
    rw [@List.erase_cons_head _ instBEqOfDecidableEq instLawfulBEq]
  simp only [a_star, aStarLoop, initState]
  rw [hpop]
  simp [reconstruct, Function.update_same]

/-- Witness for C8: a degenerate leg whose endpoint is itself blocked. -/
theorem a_star_degenerate_witness :
    a_star 1 ((3, 4) : Cell) (3, 4) [(3, 4)] = some (some [(3, 4)]) :=
  a_star_degenerate 1 (by norm_num) (3, 4) [(3, 4)]

/-! ### C9: edge margin -/

/-- C9: `add_edge_margin(margin_mm)` marks every cell whose center is
within `margin_mm` of a field wall, and leaves every cell whose center is
farther than `margin_mm` from all walls unchanged. -/
theorem add_edge_margin_spec (margin_mm : ℚ) (grid : Cell → Bool) (c : Cell)
    (hc : inBounds c) :
    (boundary_dist c < margin_mm → add_edge_margin margin_mm grid c = true) ∧
    (margin_mm < boundary_dist c → add_edge_margin margin_mm grid c = grid c) := by
  unfold add_edge_margin boundary_dist
  constructor
  · intro h
    rw [if_pos]
    refine ⟨hc, ?_⟩
    rcases max_cases |((grid_to_gps c.1 c.2).1 : ℚ)| |((grid_to_gps c.1 c.2).2 : ℚ)| with
      ⟨hm, _⟩ | ⟨hm, _⟩
    · left; rw [hm] at h; linarith
    · right; rw [hm] at h; linarith
  · intro h
    rw [if_neg]
    rintro ⟨-, hab⟩
    rcases hab with ha | hb
    · have := le_max_left |((grid_to_gps c.1 c.2).1 : ℚ)| |((grid_to_gps c.1 c.2).2 : ℚ)|
      linarith
    · have := le_max_right |((grid_to_gps c.1 c.2).1 : ℚ)| |((grid_to_gps c.1 c.2).2 : ℚ)|
      linarith

/-- Witness for C9: margin 100 mm marks the border cell `(0, 0)` (center
25 mm from the wall) and leaves the interior cell `(10, 10)` (center
525 mm from every wall) untouched on the all-free grid. -/
theorem add_edge_margin_spec_witness :
    add_edge_margin 100 (fun _ => false) (0, 0) = true ∧
    add_edge_margin 100 (fun _ => false) (10, 10) = false :=
  ⟨(add_edge_margin_spec 100 (fun _ => false) (0, 0) (by decide)).1 (by norm_num [boundary_dist, grid_to_gps, FIELD_HALF_MM, CELL_MM]),
   (add_edge_margin_spec 100 (fun _ => false) (10, 10) (by decide)).2 (by norm_num [boundary_dist, grid_to_gps, FIELD_HALF_MM, CELL_MM])⟩

/-! ### Obstacle inflation: window arithmetic -/

lemma cell_radius_eq : cell_radius = 4 := by decide

lemma mem_base_cells {grid : Cell → Bool} {c : Cell} :
    c ∈ base_cells grid ↔ inBounds c ∧ grid c = true := by
  unfold base_cells
  constructor
  · intro hmem
    obtain ⟨y, hy, hrow⟩ := List.mem_flatMap.mp hmem
    rw [List.mem_range] at hy
    obtain ⟨hmap, hg⟩ := List.mem_filter.mp hrow
    obtain ⟨x, hx, hcx⟩ := List.mem_map.mp hmap
    rw [List.mem_range] at hx
    subst hcx
    refine ⟨?_, hg⟩
    simp only [inBounds, GRID_SIZE]
    exact ⟨by exact_mod_cast Nat.zero_le x, by exact_mod_cast hx,
      by exact_mod_cast Nat.zero_le y, by exact_mod_cast hy⟩
  · rintro ⟨⟨h1, h2, h3, h4⟩, hg⟩
    rw [GRID_SIZE] at h2 h4
    refine List.mem_flatMap.mpr ⟨c.2.toNat, List.mem_range.mpr (by omega),
      List.mem_filter.mpr ⟨List.mem_map.mpr ⟨c.1.toNat, List.mem_range.mpr (by omega), ?_⟩, hg⟩⟩
    rw [Prod.ext_iff]
    constructor <;> · simp only; omega

lemma dist2_center (c o : Cell) :
    dist2_mm (grid_to_gps c.1 c.2) (grid_to_gps o.1 o.2) =
      2500 * ((c.1 - o.1) ^ 2 + (c.2 - o.2) ^ 2) := by
  simp only [dist2_mm, grid_to_gps, CELL_MM, FIELD_HALF_MM]
  ring

lemma mem_window_cells {o c : Cell} (hc : inBounds c)
    (hx : (c.1 - o.1).natAbs ≤ 4) (hy : (c.2 - o.2).natAbs ≤ 4) :
    c ∈ window_cells o := by
  obtain ⟨h1, h2, h3, h4⟩ := hc
  rw [GRID_SIZE] at h2 h4
  unfold window_cells
  rw [cell_radius_eq]
  simp only [clamp, GRID_SIZE]
  refine List.mem_flatMap.mpr ⟨(c.2 - max 0 (min (72 - 1) (o.2 - 4))).toNat,
    List.mem_range.mpr (by simp only [max_def, min_def]; split_ifs <;> omega),
    List.mem_map.mpr ⟨(c.1 - max 0 (min (72 - 1) (o.1 - 4))).toNat,
      List.mem_range.mpr (by simp only [max_def, min_def]; split_ifs <;> omega), ?_⟩⟩
  rw [Prod.ext_iff]
  constructor <;> · simp only [max_def, min_def]; split_ifs <;> omega

lemma window_inBounds {o c : Cell} (hmem : c ∈ window_cells o) : inBounds c := by
  unfold window_cells at hmem
  rw [cell_radius_eq] at hmem
  obtain ⟨j, hj, hmap⟩ := List.mem_flatMap.mp hmem
  rw [List.mem_range] at hj
  obtain ⟨i, hi, hc⟩ := List.mem_map.mp hmap
  rw [List.mem_range] at hi
  rw [← hc]
  simp only [inBounds, GRID_SIZE, clamp, max_def, min_def] at hj hi ⊢
  split_ifs at hj hi ⊢ <;> omega

lemma mem_inflate_one {o c : Cell} :
    c ∈ inflate_one o ↔ c ∈ window_cells o ∧
      dist2_mm (grid_to_gps c.1 c.2) (grid_to_gps o.1 o.2)
        ≤ COLLISION_RADIUS_MM * COLLISION_RADIUS_MM := by
  simp [inflate_one, List.mem_filter]

lemma inflated_mem_iff {grid : Cell → Bool} {c : Cell} (hc : inBounds c) :
    c ∈ build_inflated_obstacles grid ↔
      ∃ o ∈ base_cells grid,
        dist2_mm (grid_to_gps c.1 c.2) (grid_to_gps o.1 o.2)
          ≤ COLLISION_RADIUS_MM * COLLISION_RADIUS_MM := by
  unfold build_inflated_obstacles
  simp only [List.mem_flatMap]
  constructor
  · rintro ⟨o, ho, hco⟩
    exact ⟨o, ho, (mem_inflate_one.mp hco).2⟩
  · rintro ⟨o, ho, hd⟩
    refine ⟨o, ho, mem_inflate_one.mpr ⟨?_, hd⟩⟩
    rw [dist2_center] at hd
    rw [COLLISION_RADIUS_MM] at hd
    have hsum : (c.1 - o.1) ^ 2 + (c.2 - o.2) ^ 2 ≤ 16 := by linarith
    have hx2 : (c.1 - o.1) ^ 2 ≤ 16 := by nlinarith [sq_nonneg (c.2 - o.2)]
    have hy2 : (c.2 - o.2) ^ 2 ≤ 16 := by nlinarith [sq_nonneg (c.1 - o.1)]
    have hx1 : -4 ≤ c.1 - o.1 ∧ c.1 - o.1 ≤ 4 := by constructor <;> nlinarith
    have hy1 : -4 ≤ c.2 - o.2 ∧ c.2 - o.2 ≤ 4 := by constructor <;> nlinarith
    exact mem_window_cells hc (by omega) (by omega)

lemma base_subset_inflated (grid : Cell → Bool) :
    ∀ c ∈ base_cells grid, c ∈ build_inflated_obstacles grid := by
  intro c hcb
  have hcB : inBounds c := (mem_base_cells.mp hcb).1
  unfold build_inflated_obstacles
  simp only [List.mem_flatMap]
  refine ⟨c, hcb, mem_inflate_one.mpr ⟨mem_window_cells hcB (by simp) (by simp), ?_⟩⟩
  simp [dist2_mm, COLLISION_RADIUS_MM]

lemma inflated_eq_nil_iff (grid : Cell → Bool) :
    build_inflated_obstacles grid = [] ↔ base_cells grid = [] := by
  constructor
  · intro h
    by_contra hne
    obtain ⟨c, hc⟩ := List.exists_mem_of_ne_nil _ hne
    exact absurd h (List.ne_nil_of_mem (base_subset_inflated grid c hc))
  · intro h
    unfold build_inflated_obstacles
    rw [h]
    rfl

/-- C4: after `build_inflated_obstacles`, a cell is inflated iff its
physical center lies within Euclidean distance `COLLISION_RADIUS_MM` of
the center of some base cell (bounded-window scan loses nothing). -/
theorem build_inflated_obstacles_iff (grid : Cell → Bool) (c : Cell) (hc : inBounds c) :
    c ∈ build_inflated_obstacles grid ↔
      ∃ o ∈ base_cells grid,
        dist2_mm (grid_to_gps c.1 c.2) (grid_to_gps o.1 o.2)
          ≤ COLLISION_RADIUS_MM * COLLISION_RADIUS_MM :=
  inflated_mem_iff hc

/-- Witness for C4: base obstacle at `(10, 10)`; the cell `(10, 14)`
(exactly 200 mm below the center) is inflated. -/
theorem build_inflated_obstacles_iff_witness :
    ((10, 14) : Cell) ∈
      build_inflated_obstacles (fun c => decide (c = ((10 : ℤ), (10 : ℤ)))) :=
  (build_inflated_obstacles_iff _ (10, 14) (by decide)).mpr
    ⟨(10, 10), by decide, by decide⟩

/-- C5: the inflated set contains the base set, is empty exactly when the
base set is empty, and is a pure function of the base set (together with
the fixed `COLLISION_RADIUS_MM` and `CELL_MM`). -/
theorem build_inflated_obstacles_invariants (grid : Cell → Bool) :
    (∀ c ∈ base_cells grid, c ∈ build_inflated_obstacles grid) ∧
    (build_inflated_obstacles grid = [] ↔ base_cells grid = []) ∧
    (∀ grid2 : Cell → Bool, base_cells grid = base_cells grid2 →
      build_inflated_obstacles grid = build_inflated_obstacles grid2) := by
  refine ⟨base_subset_inflated grid, inflated_eq_nil_iff grid, ?_⟩
  intro grid2 h
  unfold build_inflated_obstacles
  rw [h]

/-- Witness for C5 on a one-cell base layer, the empty layer, and two
distinct grids with the same base cells. -/
theorem build_inflated_obstacles_invariants_witness :
    ((10, 10) : Cell) ∈
      build_inflated_obstacles (fun c => decide (c = ((10 : ℤ), (10 : ℤ)))) ∧
    build_inflated_obstacles (fun _ => false) = [] ∧
    build_inflated_obstacles (fun c => decide (c = ((10 : ℤ), (10 : ℤ)))) =
      build_inflated_obstacles
        (fun c => decide (c = ((10 : ℤ), (10 : ℤ))) || decide (c = ((100 : ℤ), (100 : ℤ)))) :=
  ⟨(build_inflated_obstacles_invariants _).1 (10, 10) (by decide),
   (build_inflated_obstacles_invariants _).2.1.mpr (by decide),
   (build_inflated_obstacles_invariants _).2.2 _ (by decide)⟩

/-! ### C3: all-or-nothing stitching -/

lemma legs_cons (s w g : Cell) (rest : List Cell) :
    legs s (w :: rest) g = (s, w) :: legs w rest g := rfl

lemma compute_go_fail (fuel : ℕ) (g : Cell) (obst : List Cell) :
    ∀ (wps : List Cell) (s : Cell) (full p : List Cell),
      (∃ l ∈ legs s wps g, a_star fuel l.1 l.2 obst = some none) →
      compute_total_path_go fuel obst s (wps ++ [g]) full = some p → p = [] := by
  intro wps
  induction wps with
  | nil =>
    intro s full p hex hgo
    simp only [legs, List.zip, List.zipWith, List.mem_singleton] at hex
    obtain ⟨l, hl, hfail⟩ := hex
    subst hl
    rw [List.nil_append] at hgo
    rw [compute_total_path_go, hfail] at hgo
    exact (Option.some.inj hgo).symm
  | cons w rest ih =>
    intro s full p hex hgo
    rw [legs_cons] at hex
    rw [List.cons_append, compute_total_path_go] at hgo
    cases ha : a_star fuel s w obst with
    | none => rw [ha] at hgo; exact absurd hgo (by simp)
    | some o =>
      cases o with
      | none => rw [ha] at hgo; exact (Option.some.inj hgo).symm
      | some seg =>
        simp only [ha] at hgo
        by_cases hseg : seg = []
        · rw [if_pos hseg] at hgo
          exact (Option.some.inj hgo).symm
        · rw [if_neg hseg] at hgo
          obtain ⟨l, hl, hfail⟩ := hex
          rcases List.mem_cons.mp hl with hlf | hl2
          · subst hlf
            rw [ha] at hfail
            exact absurd hfail (by simp)
          · exact ih w _ p ⟨l, hl2, hfail⟩ hgo

/-- C3: if any leg of the stitched route `start → waypoints… → goal`
fails (`a_star` returns the source's `None`), the computed route is the
empty sequence regardless of earlier legs and regardless of the
previously stored route. -/
theorem compute_total_path_all_or_nothing (fuel : ℕ) (s g : Cell) (wps : List Cell)
    (grid : Cell → Bool) (oldPath p : List Cell)
    (hex : ∃ l ∈ legs s wps g,
      a_star fuel l.1 l.2 (build_inflated_obstacles grid) = some none)
    (h : compute_total_path fuel (some s) (some g) wps grid oldPath = some p) :
    p = [] := by
  unfold compute_total_path at h
  exact compute_go_fail fuel g (build_inflated_obstacles grid) wps s [] p hex h

/-- Witness for C3: a base obstacle at the start cell blocks all four of
its neighbors after inflation, so the single leg fails and the route
computed over a stale non-empty `oldPath` is empty. -/
theorem compute_total_path_all_or_nothing_witness :
    ∃ p, compute_total_path 2 (some (35, 35)) (some (40, 40)) []
        (fun c => decide (c = ((35 : ℤ), (35 : ℤ)))) [(0, 0)] = some p ∧ p = [] :=
  ⟨[], by decide,
    compute_total_path_all_or_nothing 2 (35, 35) (40, 40) []
      (fun c => decide (c = ((35 : ℤ), (35 : ℤ)))) [(0, 0)] []
      ⟨((35, 35), (40, 40)), by decide, by decide⟩ (by decide)⟩

/-! ### The A* core: paths, invariants -/

/-- Paths through the search graph: rooted at `start` (whose own cell is
never tested by the search), each step moves to a 4-adjacent, in-bounds,
unblocked cell; the index is the number of edges. -/
inductive VPath (start : Cell) (obst : List Cell) : Cell → ℕ → Prop
  | nil : VPath start obst start 0
  | cons {y z : Cell} {k : ℕ} : VPath start obst y k → adjacent y z → inBounds z →
      z ∉ obst → VPath start obst z (k + 1)

/-- What `a_star` promises of a returned sequence. -/
def GoodPath (start goal : Cell) (obst : List Cell) (p : List Cell) : Prop :=
  p.head? = some start ∧ p.getLast? = some goal ∧ p.Chain' adjacent ∧
    ∀ x ∈ p, x = start ∨ (inBounds x ∧ x ∉ obst)

lemma adjacent_symm {a b : Cell} (h : adjacent a b) : adjacent b a := by
  unfold adjacent at h ⊢
  omega

lemma adjacent_ne {a b : Cell} (h : adjacent a b) : a ≠ b := by
  intro he
  subst he
  unfold adjacent at h
  omega

lemma heuristic_adjacent {a b : Cell} (h : adjacent a b) : heuristic a b = 1 := h

lemma heuristic_triangle (a b c : Cell) :
    heuristic a c ≤ heuristic a b + heuristic b c := by
  unfold heuristic
  omega

lemma heuristic_self (a : Cell) : heuristic a a = 0 := by
  unfold heuristic
  omega

lemma mem_neighborsOf {c n : Cell} : n ∈ neighborsOf c ↔ adjacent c n := by
  unfold neighborsOf adjacent
  obtain ⟨c1, c2⟩ := c
  obtain ⟨n1, n2⟩ := n
  simp only [List.mem_cons, List.mem_singleton, List.not_mem_nil, or_false, Prod.mk.injEq]
  omega

/-- Frontier/score/predecessor invariants maintained by every iteration
(except the freshness clause, re-established after each expansion). -/
structure BInv (start goal : Cell) (obst : List Cell) (s : AState) : Prop where
  start_g : s.gS start = some 0
  open_dom : ∀ e ∈ s.openL, ∃ v, s.gS e.2 = some v
  goal_pr : ∀ e ∈ s.openL, e.2 = goal → ∀ v, s.gS goal = some v → v ≤ e.1
  dom_cf : ∀ c : Cell, (∃ v, s.gS c = some v) → c ≠ start → ∃ p, s.cf c = some p
  cf_dom : ∀ c p : Cell, s.cf c = some p → ∃ v, s.gS c = some v
  cf_g : ∀ c p : Cell, s.cf c = some p → ∀ vc, s.gS c = some vc →
    ∃ vp, s.gS p = some vp ∧ vp + 1 ≤ vc
  cf_valid : ∀ c p : Cell, s.cf c = some p → inBounds c ∧ c ∉ obst ∧ adjacent p c
  dom_univ : ∀ c : Cell, (∃ v, s.gS c = some v) → inBounds c ∨ c = start
  goal_open : (∃ v, s.gS goal = some v) → goal ∈ s.openL.map Prod.snd

/-- A scored cell either still has a frontier entry at least as good as
its current score plus heuristic, or all its edges are relaxed. -/
def FR (goal : Cell) (obst : List Cell) (c : Cell) (v : ℕ) (s : AState) : Prop :=
  (∃ e ∈ s.openL, e.2 = c ∧ e.1 ≤ v + heuristic c goal) ∨
  (∀ n ∈ neighborsOf c, inBounds n → n ∉ obst →
    ∃ w, s.gS n = some w ∧ w ≤ v + 1)

/-- The full loop invariant. -/
structure AInv (start goal : Cell) (obst : List Cell) (s : AState) : Prop where
  base : BInv start goal obst s
  fresh_rel : ∀ c v, s.gS c = some v → FR goal obst c v s

lemma cf_start_none {start goal : Cell} {obst : List Cell} {s : AState}
    (h : BInv start goal obst s) : s.cf start = none := by
  cases hc : s.cf start with
  | none => rfl
  | some p =>
    obtain ⟨vp, -, hle⟩ := h.cf_g start p hc 0 h.start_g
    omega

lemma AInv_init (start goal : Cell) (obst : List Cell) :
    AInv start goal obst (initState start) := by
  have hg : ∀ c : Cell, (initState start).gS c = some 0 ∨ (initState start).gS c = none := by
    intro c
    by_cases hc : c = start
    · subst hc; left; simp [initState]
    · right; simp [initState, Function.update_noteq hc]
  have hgs : (initState start).gS start = some 0 := by simp [initState]
  refine ⟨⟨hgs, ?_, ?_, ?_, ?_, ?_, ?_, ?_, ?_⟩, ?_⟩
  · intro e he
    simp only [initState, List.mem_singleton] at he
    subst he
    exact ⟨0, hgs⟩
  · intro e he hg2 v hv
    simp only [initState, List.mem_singleton] at he
    subst he
    rcases hg goal with h | h
    · rw [h] at hv
      simp only [Option.some.injEq] at hv
      show v ≤ 0
      omega
    · rw [h] at hv; exact absurd hv (by simp)
  · intro c ⟨v, hv⟩ hne
    rcases hg c with h | h
    · exfalso
      rw [show (initState start).gS c = (Function.update (fun _ => none) start (some 0)) c from rfl,
        Function.update_noteq hne] at h
      exact absurd h (by simp)
    · rw [h] at hv; exact absurd hv (by simp)
  · intro c p hc
    exact absurd hc (by simp [initState])
  · intro c p hc
    exact absurd hc (by simp [initState])
  · intro c p hc
    exact absurd hc (by simp [initState])
  · intro c ⟨v, hv⟩
    by_cases hc : c = start
    · right; exact hc
    · exfalso
      rw [show (initState start).gS c = (Function.update (fun _ => none) start (some 0)) c from rfl,
        Function.update_noteq hc] at hv
      exact absurd hv (by simp)
  · intro ⟨v, hv⟩
    by_cases hgoal : goal = start
    · subst hgoal; simp [initState]
    · exfalso
      rw [show (initState start).gS goal = (Function.update (fun _ => none) start (some 0)) goal from rfl,
        Function.update_noteq hgoal] at hv
      exact absurd hv (by simp)
  · intro c v hv
    by_cases hc : c = start
    · exact Or.inl ⟨(0, start), by simp [initState], hc.symm, Nat.zero_le _⟩
    · exfalso
      rw [show (initState start).gS c = (Function.update (fun _ => none) start (some 0)) c from rfl,
        Function.update_noteq hc] at hv
      exact absurd hv (by simp)

/-! ### Preservation of the invariant by one relaxation -/

lemma relaxTest_iff (o : Option ℕ) (tg : ℕ) :
    relaxTest o tg = true ↔ o = none ∨ ∃ old, o = some old ∧ tg < old := by
  cases o <;> simp [relaxTest]

lemma relaxOne_cases (goal current : Cell) (obst : List Cell) (gcur : ℕ)
    (s : AState) (n : Cell) :
    (relaxOne goal current obst gcur s n = s ∧
      (¬(inBounds n ∧ n ∉ obst) ∨ ∃ old, s.gS n = some old ∧ ¬gcur + 1 < old)) ∨
    (relaxOne goal current obst gcur s n = pushState goal current gcur s n ∧
      (inBounds n ∧ n ∉ obst) ∧
      (s.gS n = none ∨ ∃ old, s.gS n = some old ∧ gcur + 1 < old)) := by
  unfold relaxOne
  by_cases hn : inBounds n ∧ n ∉ obst
  · rw [if_pos hn]
    by_cases ht : relaxTest (s.gS n) (gcur + 1) = true
    · rw [if_pos ht]
      exact Or.inr ⟨rfl, hn, (relaxTest_iff _ _).mp ht⟩
    · rw [if_neg ht]
      refine Or.inl ⟨rfl, Or.inr ?_⟩
      cases ho : s.gS n with
      | none => exact absurd ((relaxTest_iff _ _).mpr (Or.inl ho)) ht
      | some old =>
        refine ⟨old, rfl, fun hlt => ht ?_⟩
        exact (relaxTest_iff _ _).mpr (Or.inr ⟨old, ho, hlt⟩)
  · rw [if_neg hn]
    exact Or.inl ⟨rfl, Or.inl hn⟩

lemma relaxOne_gS_le (goal current : Cell) (obst : List Cell) (gcur : ℕ)
    (s : AState) (n : Cell) :
    ∀ c w, s.gS c = some w →
      ∃ v, (relaxOne goal current obst gcur s n).gS c = some v ∧ v ≤ w := by
  intro c w hw
  rcases relaxOne_cases goal current obst gcur s n with ⟨he, -⟩ | ⟨he, -, hcase⟩
  · rw [he]; exact ⟨w, hw, le_refl w⟩
  · rw [he]
    by_cases hc : c = n
    · subst hc
      rcases hcase with h0 | ⟨old, hold, hlt⟩
      · rw [h0] at hw; exact absurd hw (by simp)
      · rw [hold] at hw
        injection hw with hw2
        exact ⟨gcur + 1, by simp [pushState, Function.update_same], by omega⟩
    · exact ⟨w, by simp [pushState, Function.update_noteq hc, hw], le_refl w⟩

lemma foldl_relax_gS_le (goal current : Cell) (obst : List Cell) (gcur : ℕ) :
    ∀ (ns : List Cell) (s : AState) (c : Cell) (w : ℕ), s.gS c = some w →
      ∃ v, (ns.foldl (relaxOne goal current obst gcur) s).gS c = some v ∧ v ≤ w := by
  intro ns
  induction ns with
  | nil => intro s c w hw; exact ⟨w, hw, le_refl w⟩
  | cons n ns ih =>
    intro s c w hw
    obtain ⟨v1, h1, hle1⟩ := relaxOne_gS_le goal current obst gcur s n c w hw
    obtain ⟨v2, h2, hle2⟩ := ih _ c v1 h1
    exact ⟨v2, h2, le_trans hle2 hle1⟩

/-- Mid-expansion invariant: the base invariant, the popped cell's score
pinned, and the freshness clause for every other scored cell. -/
def MidP (start goal : Cell) (obst : List Cell) (current : Cell) (gcur : ℕ)
    (s : AState) : Prop :=
  BInv start goal obst s ∧ s.gS current = some gcur ∧
    ∀ c v, c ≠ current → s.gS c = some v → FR goal obst c v s

lemma relaxOne_pres (start goal current : Cell) (obst : List Cell) (gcur : ℕ)
    (s : AState) (n : Cell) (hadj : adjacent current n)
    (hM : MidP start goal obst current gcur s) :
    MidP start goal obst current gcur (relaxOne goal current obst gcur s n) ∧
    (inBounds n → n ∉ obst →
      ∃ w, (relaxOne goal current obst gcur s n).gS n = some w ∧ w ≤ gcur + 1) := by
  obtain ⟨hB, hgc, hFR⟩ := hM
  have hnc : current ≠ n := adjacent_ne hadj
  rcases relaxOne_cases goal current obst gcur s n with ⟨he, hside⟩ | ⟨he, hn, hcase⟩
  · rw [he]
    refine ⟨⟨hB, hgc, hFR⟩, ?_⟩
    intro hin hnob
    rcases hside with habs | ⟨old, hold, hnl⟩
    · exact absurd ⟨hin, hnob⟩ habs
    · exact ⟨old, hold, by omega⟩
  · rw [he]
    have hnstart : n ≠ start := by
      intro hns
      subst hns
      rcases hcase with h0 | ⟨old, hold, hlt⟩
      · rw [hB.start_g] at h0; exact absurd h0 (by simp)
      · rw [hB.start_g] at hold
        injection hold with h2
        omega
    have hgS : ∀ c, (pushState goal current gcur s n).gS c =
        if c = n then some (gcur + 1) else s.gS c := by
      intro c
      by_cases hc : c = n
      · subst hc; simp [pushState, Function.update_same]
      · simp [pushState, Function.update_noteq hc, hc]
    have hcf : ∀ c, (pushState goal current gcur s n).cf c =
        if c = n then some current else s.cf c := by
      intro c
      by_cases hc : c = n
      · subst hc; simp [pushState, Function.update_same]
      · simp [pushState, Function.update_noteq hc, hc]
    have hopen : (pushState goal current gcur s n).openL =
        s.openL ++ [(gcur + 1 + heuristic n goal, n)] := rfl
    refine ⟨⟨⟨?_, ?_, ?_, ?_, ?_, ?_, ?_, ?_, ?_⟩, ?_, ?_⟩, ?_⟩
    · -- start_g
      rw [hgS, if_neg (Ne.symm hnstart)]
      exact hB.start_g
    · -- open_dom
      intro e he2
      rw [hopen] at he2
      rcases List.mem_append.mp he2 with he2 | he2
      · obtain ⟨v, hv⟩ := hB.open_dom e he2
        rw [hgS]
        by_cases hc : e.2 = n
        · exact ⟨gcur + 1, by rw [if_pos hc]⟩
        · exact ⟨v, by rw [if_neg hc]; exact hv⟩
      · rw [List.mem_singleton] at he2
        subst he2
        exact ⟨gcur + 1, by rw [hgS]; simp⟩
    · -- goal_pr
      intro e he2 hegoal v hv
      rw [hgS] at hv
      rw [hopen] at he2
      by_cases hgn : goal = n
      · rw [if_pos hgn] at hv
        injection hv with hv2
        rcases List.mem_append.mp he2 with he2 | he2
        · obtain ⟨vg, hvg⟩ := hB.open_dom e he2
          rw [hegoal] at hvg
          rcases hcase with h0 | ⟨old, hold, hlt⟩
          · rw [← hgn] at h0
            rw [h0] at hvg
            exact absurd hvg (by simp)
          · rw [← hgn] at hold
            rw [hvg] at hold
            injection hold with h2
            have hvg_le := hB.goal_pr e he2 hegoal vg hvg
            omega
        · rw [List.mem_singleton] at he2
          subst he2
          have h0 : heuristic n goal = 0 := by rw [hgn]; exact heuristic_self n
          show v ≤ gcur + 1 + heuristic n goal
          omega
      · rw [if_neg hgn] at hv
        rcases List.mem_append.mp he2 with he2 | he2
        · exact hB.goal_pr e he2 hegoal v hv
        · rw [List.mem_singleton] at he2
          subst he2
          exact absurd hegoal.symm hgn
    · -- dom_cf
      rintro c ⟨v, hv⟩ hcs
      rw [hgS] at hv
      rw [hcf]
      by_cases hc : c = n
      · exact ⟨current, by rw [if_pos hc]⟩
      · rw [if_neg hc] at hv ⊢
        exact hB.dom_cf c ⟨v, hv⟩ hcs
    · -- cf_dom
      intro c p hc
      rw [hcf] at hc
      rw [hgS]
      by_cases hcn : c = n
      · exact ⟨gcur + 1, by rw [if_pos hcn]⟩
      · rw [if_neg hcn] at hc ⊢
        exact hB.cf_dom c p hc
    · -- cf_g
      intro c p hc vc hvc
      rw [hcf] at hc
      rw [hgS] at hvc
      by_cases hcn : c = n
      · rw [if_pos hcn] at hc hvc
        injection hc with hc2
        injection hvc with hvc2
        subst hc2
        rw [hgS, if_neg hnc]
        exact ⟨gcur, hgc, by omega⟩
      · rw [if_neg hcn] at hc hvc
        obtain ⟨vp, hvp, hle2⟩ := hB.cf_g c p hc vc hvc
        rw [hgS]
        by_cases hpn : p = n
        · subst hpn
          rcases hcase with h0 | ⟨old, hold, hlt⟩
          · rw [h0] at hvp; exact absurd hvp (by simp)
          · rw [hold] at hvp
            injection hvp with h2
            exact ⟨gcur + 1, by rw [if_pos rfl], by omega⟩
        · rw [if_neg hpn]
          exact ⟨vp, hvp, hle2⟩
    · -- cf_valid
      intro c p hc
      rw [hcf] at hc
      by_cases hcn : c = n
      · rw [if_pos hcn] at hc
        injection hc with hc2
        subst hcn
        subst hc2
        exact ⟨hn.1, hn.2, hadj⟩
      · rw [if_neg hcn] at hc
        exact hB.cf_valid c p hc
    · -- dom_univ
      rintro c ⟨v, hv⟩
      rw [hgS] at hv
      by_cases hcn : c = n
      · subst hcn; exact Or.inl hn.1
      · rw [if_neg hcn] at hv
        exact hB.dom_univ c ⟨v, hv⟩
    · -- goal_open
      rintro ⟨v, hv⟩
      rw [hgS] at hv
      by_cases hgn : goal = n
      · rw [hopen, List.map_append]
        refine List.mem_append.mpr (Or.inr ?_)
        simp [hgn]
      · rw [if_neg hgn] at hv
        have hmem := hB.goal_open ⟨v, hv⟩
        rw [hopen, List.map_append]
        exact List.mem_append.mpr (Or.inl hmem)
    · -- score of current pinned
      rw [hgS, if_neg hnc]
      exact hgc
    · -- FR for others
      intro c v hcc hv
      rw [hgS] at hv
      by_cases hcn : c = n
      · subst hcn
        rw [if_pos rfl] at hv
        injection hv with hv2
        left
        refine ⟨(gcur + 1 + heuristic c goal, c), ?_, rfl, by omega⟩
        rw [hopen]
        exact List.mem_append.mpr (Or.inr (by simp))
      · rw [if_neg hcn] at hv
        rcases hFR c v hcc hv with ⟨e, he2, hec, hepr⟩ | hrel
        · left
          refine ⟨e, ?_, hec, hepr⟩
          rw [hopen]
          exact List.mem_append.mpr (Or.inl he2)
        · right
          intro m hm hmin hmob
          obtain ⟨w, hw, hwle⟩ := hrel m hm hmin hmob
          rw [hgS]
          by_cases hmn : m = n
          · subst hmn
            rcases hcase with h0 | ⟨old, hold, hlt⟩
            · rw [h0] at hw; exact absurd hw (by simp)
            · rw [hold] at hw
              injection hw with h2
              exact ⟨gcur + 1, by rw [if_pos rfl], by omega⟩
          · rw [if_neg hmn]
            exact ⟨w, hw, hwle⟩
    · -- the relaxed fact for n itself
      intro hin hnob
      exact ⟨gcur + 1, by rw [hgS, if_pos rfl], le_refl _⟩

lemma relax_foldl_pres (start goal current : Cell) (obst : List Cell) (gcur : ℕ) :
    ∀ (ns : List Cell) (s : AState), (∀ n ∈ ns, adjacent current n) →
      MidP start goal obst current gcur s →
      MidP start goal obst current gcur (ns.foldl (relaxOne goal current obst gcur) s) ∧
      (∀ n ∈ ns, inBounds n → n ∉ obst →
        ∃ w, (ns.foldl (relaxOne goal current obst gcur) s).gS n = some w ∧ w ≤ gcur + 1) := by
  intro ns
  induction ns with
  | nil =>
    intro s _ hM
    exact ⟨hM, by simp⟩
  | cons n ns ih =>
    intro s hadj hM
    obtain ⟨hM1, hproc⟩ := relaxOne_pres start goal current obst gcur s n
      (hadj n (List.mem_cons_self _ _)) hM
    obtain ⟨hM2, hrest⟩ := ih (relaxOne goal current obst gcur s n)
      (fun m hm => hadj m (List.mem_cons_of_mem _ hm)) hM1
    refine ⟨hM2, ?_⟩
    intro m hm hmin hmob
    rcases List.mem_cons.mp hm with hmn | hm2
    · subst hmn
      obtain ⟨w, hw, hwle⟩ := hproc hmin hmob
      obtain ⟨v, hv, hvle⟩ := foldl_relax_gS_le goal current obst gcur ns _ m w hw
      exact ⟨v, hv, le_trans hvle hwle⟩
    · exact hrest m hm2 hmin hmob

lemma step_pres (start goal : Cell) (obst : List Cell) (s : AState) (e : ℕ × Cell)
    (rest : List (ℕ × Cell)) (gcur : ℕ)
    (hA : AInv start goal obst s) (hpop : popMin s.openL = some (e, rest))
    (hgoal : e.2 ≠ goal) (hg : s.gS e.2 = some gcur) :
    AInv start goal obst (expand goal e.2 obst gcur ⟨rest, s.gS, s.cf⟩) := by
  obtain ⟨hmem, hle, hrr⟩ := popMin_spec hpop
  have hsub : ∀ x ∈ rest, x ∈ s.openL := by
    intro x hx
    rw [hrr] at hx
    exact mem_of_mem_eraseEntry hx
  have hkeep : ∀ x ∈ s.openL, x.2 ≠ e.2 → x ∈ rest := by
    intro x hx hxne
    rw [hrr]
    exact (mem_eraseEntry_of_ne (fun hxe => hxne (by rw [hxe]))).mpr hx
  have hM : MidP start goal obst e.2 gcur ⟨rest, s.gS, s.cf⟩ := by
    refine ⟨⟨hA.base.start_g, ?_, ?_, hA.base.dom_cf, hA.base.cf_dom, hA.base.cf_g,
      hA.base.cf_valid, hA.base.dom_univ, ?_⟩, hg, ?_⟩
    · intro x hx
      exact hA.base.open_dom x (hsub x hx)
    · intro x hx hxg v hv
      exact hA.base.goal_pr x (hsub x hx) hxg v hv
    · intro hgoalv
      obtain ⟨x, hx, hx2⟩ := List.mem_map.mp (hA.base.goal_open hgoalv)
      exact List.mem_map.mpr ⟨x, hkeep x hx (by rw [hx2]; exact Ne.symm hgoal), hx2⟩
    · intro c v hcc hv
      rcases hA.fresh_rel c v hv with ⟨x, hx, hxc, hxpr⟩ | hrel
      · exact Or.inl ⟨x, hkeep x hx (by rw [hxc]; exact hcc), hxc, hxpr⟩
      · exact Or.inr hrel
  show AInv start goal obst ((neighborsOf e.2).foldl (relaxOne goal e.2 obst gcur) ⟨rest, s.gS, s.cf⟩)
  obtain ⟨⟨hB2, hgc2, hFR2⟩, hproc⟩ := relax_foldl_pres start goal e.2 obst gcur
    (neighborsOf e.2) ⟨rest, s.gS, s.cf⟩ (fun n hn => mem_neighborsOf.mp hn) hM
  refine ⟨hB2, ?_⟩
  intro c v hv
  by_cases hcc : c = e.2
  · subst hcc
    right
    intro m hm hmin hmob
    obtain ⟨w, hw, hwle⟩ := hproc m hm hmin hmob
    have hveq : v = gcur := by
      rw [hv] at hgc2
      exact Option.some.inj hgc2
    exact ⟨w, hw, by omega⟩
  · exact hFR2 c v hcc hv

/-! ### Path reconstruction is sound -/

lemma reconstruct_sound (start goal : Cell) (obst : List Cell) (s : AState)
    (hB : BInv start goal obst s) :
    ∀ (fuel : ℕ) (c : Cell) (v : ℕ) (acc : List Cell), s.gS c = some v → v + 1 ≤ fuel →
      ∃ q : List Cell, reconstruct start s.cf fuel c acc = some (q ++ acc) ∧
        q ≠ [] ∧ q.head? = some start ∧ q.getLast? = some c ∧ q.Chain' adjacent ∧
        q.length ≤ v + 1 ∧ ∀ x ∈ q, x = start ∨ (inBounds x ∧ x ∉ obst) := by
  intro fuel
  induction fuel with
  | zero =>
    intro c v acc _ hf
    omega
  | succ f ih =>
    intro c v acc hv hf
    cases hc : s.cf c with
    | none =>
      have hcs : c = start := by
        by_contra hne
        obtain ⟨p, hp⟩ := hB.dom_cf c ⟨v, hv⟩ hne
        rw [hc] at hp
        exact absurd hp (by simp)
      subst hcs
      refine ⟨[c], ?_, by simp, by simp, by simp, by simp, by simp, by simp⟩
      show reconstruct c s.cf (f + 1) c acc = some ([c] ++ acc)
      rw [reconstruct, hc]
      simp
    | some p =>
      obtain ⟨vp, hvp, hvple⟩ := hB.cf_g c p hc v hv
      obtain ⟨hcin, hcob, hadjpc⟩ := hB.cf_valid c p hc
      obtain ⟨qp, hrec, hqne, hqh, hql, hqc, hqlen, hqmem⟩ :=
        ih p vp (c :: acc) hvp (by omega)
      obtain ⟨h0, t0, hqp⟩ : ∃ h0 t0, qp = h0 :: t0 := by
        cases qp with
        | nil => exact absurd rfl hqne
        | cons h0 t0 => exact ⟨h0, t0, rfl⟩
      refine ⟨qp ++ [c], ?_, by simp, ?_, ?_, ?_, ?_, ?_⟩
      · show reconstruct start s.cf (f + 1) c acc = some ((qp ++ [c]) ++ acc)
        rw [reconstruct, hc]
        show reconstruct start s.cf f p (c :: acc) = some ((qp ++ [c]) ++ acc)
        rw [hrec]
        simp
      · rw [hqp] at hqh ⊢
        simpa using hqh
      · exact List.getLast?_concat qp
      · rw [List.chain'_append]
        refine ⟨hqc, by simp, ?_⟩
        intro x hx y hy
        rw [hql] at hx
        simp at hx hy
        subst hx
        subst hy
        exact hadjpc
      · simp only [List.length_append, List.length_singleton]
        omega
      · intro x hx
        rcases List.mem_append.mp hx with hx | hx
        · exact hqmem x hx
        · rw [List.mem_singleton] at hx
          subst hx
          exact Or.inr ⟨hcin, hcob⟩

/-! ### The A* bound along any valid path -/

lemma entryLt_false_fst {a b : ℕ × Cell} (h : entryLt a b = false) : b.1 ≤ a.1 := by
  obtain ⟨a1, a2, a3⟩ := a
  obtain ⟨b1, b2, b3⟩ := b
  simp [entryLt] at h
  omega

lemma pathBound (start goal : Cell) (obst : List Cell) (s : AState)
    (hA : AInv start goal obst s) :
    ∀ (z : Cell) (k : ℕ), VPath start obst z k →
      (∃ v, s.gS z = some v ∧ v ≤ k) ∨
      (∃ e ∈ s.openL, ∃ vu, s.gS e.2 = some vu ∧ e.1 ≤ vu + heuristic e.2 goal ∧
        vu + heuristic e.2 z ≤ k) := by
  intro z k hvp
  induction hvp with
  | nil => exact Or.inl ⟨0, hA.base.start_g, le_refl 0⟩
  | @cons y z2 k2 hpath hadj2 hin hob ih =>
    rcases ih with ⟨vy, hgy, hvyk⟩ | ⟨e, he, vu, hgu, hepr, hbound⟩
    · rcases hA.fresh_rel y vy hgy with ⟨e, he, hec, hepr⟩ | hrel
      · refine Or.inr ⟨e, he, vy, ?_, ?_, ?_⟩
        · rw [hec]; exact hgy
        · rw [hec]; exact hepr
        · rw [hec]
          have h1 : heuristic y z2 = 1 := heuristic_adjacent hadj2
          omega
      · obtain ⟨w, hgz, hwle⟩ := hrel z2 (mem_neighborsOf.mpr hadj2) hin hob
        exact Or.inl ⟨w, hgz, by omega⟩
    · refine Or.inr ⟨e, he, vu, hgu, hepr, ?_⟩
      have htr := heuristic_triangle e.2 y z2
      have h1 : heuristic y z2 = 1 := heuristic_adjacent hadj2
      omega

lemma goal_pop_min (start goal : Cell) (obst : List Cell) (s : AState) (e : ℕ × Cell)
    (rest : List (ℕ × Cell)) (gv : ℕ)
    (hA : AInv start goal obst s) (hpop : popMin s.openL = some (e, rest))
    (hegoal : e.2 = goal) (hgv : s.gS goal = some gv) :
    ∀ k, VPath start obst goal k → gv ≤ k := by
  intro k hvp
  rcases pathBound start goal obst s hA goal k hvp with ⟨v, hv, hvk⟩ |
    ⟨u, hu, vu, hgu, hupr, hub⟩
  · rw [hgv] at hv
    have := Option.some.inj hv
    omega
  · obtain ⟨hmem, hle, -⟩ := popMin_spec hpop
    have h1 : gv ≤ e.1 := hA.base.goal_pr e hmem hegoal gv hgv
    have h3 : e.1 ≤ u.1 := entryLt_false_fst (hle u hu)
    have h0 : heuristic goal goal = 0 := heuristic_self goal
    omega

lemma no_path_of_open_empty (start goal : Cell) (obst : List Cell) (s : AState)
    (hA : AInv start goal obst s) (hopen : s.openL = []) :
    ∀ k, ¬VPath start obst goal k := by
  intro k hvp
  rcases pathBound start goal obst s hA goal k hvp with ⟨v, hv, -⟩ | ⟨e, he, -⟩
  · have := hA.base.goal_open ⟨v, hv⟩
    rw [hopen] at this
    simp at this
  · rw [hopen] at he
    simp at he

/-! ### Soundness and completeness of the search loop -/

lemma aStarLoop_main (start goal : Cell) (obst : List Cell) :
    ∀ (fuel : ℕ) (s : AState) (p : List Cell), AInv start goal obst s →
      aStarLoop start goal obst fuel s = some (some p) →
      GoodPath start goal obst p ∧ ∀ k, VPath start obst goal k → p.length ≤ k + 1 := by
  intro fuel
  induction fuel with
  | zero =>
    intro s p _ h
    exact absurd h (by simp [aStarLoop])
  | succ f ih =>
    intro s p hA h
    rw [aStarLoop] at h
    cases hpop : popMin s.openL with
    | none =>
      rw [hpop] at h
      exact absurd h (by simp)
    | some er =>
      obtain ⟨e, rest⟩ := er
      rw [hpop] at h
      by_cases hegoal : e.2 = goal
      · simp only [if_pos hegoal] at h
        cases hgv : s.gS e.2 with
        | none =>
          rw [hgv] at h
          exact absurd h (by simp)
        | some gv =>
          simp only [hgv] at h
          obtain ⟨q, hrec, hqne, hqh, hql, hqc, hqlen, hqmem⟩ :=
            reconstruct_sound start goal obst s hA.base (gv + 1) e.2 gv [] hgv (le_refl _)
          simp only [hrec] at h
          have hpq : p = q := by
            rw [List.append_nil] at h
            exact (Option.some.inj (Option.some.inj h)).symm
          subst hpq
          have hgv2 : s.gS goal = some gv := by rw [← hegoal]; exact hgv
          constructor
          · exact ⟨hqh, by rw [← hegoal]; exact hql, hqc, hqmem⟩
          · intro k hvp
            have := goal_pop_min start goal obst s e rest gv hA hpop hegoal hgv2 k hvp
            omega
      · simp only [if_neg hegoal] at h
        cases hgc : s.gS e.2 with
        | none =>
          rw [hgc] at h
          exact absurd h (by simp)
        | some gcur =>
          simp only [hgc] at h
          exact ih _ p (step_pres start goal obst s e rest gcur hA hpop hegoal hgc) h

lemma aStarLoop_complete (start goal : Cell) (obst : List Cell) :
    ∀ (fuel : ℕ) (s : AState), AInv start goal obst s →
      (∃ k, VPath start obst goal k) →
      aStarLoop start goal obst fuel s ≠ some none := by
  intro fuel
  induction fuel with
  | zero =>
    intro s _ _
    simp [aStarLoop]
  | succ f ih =>
    intro s hA hex
    rw [aStarLoop]
    cases hpop : popMin s.openL with
    | none =>
      obtain ⟨k, hvp⟩ := hex
      have hopen : s.openL = [] := (popMin_eq_none_iff _).mp hpop
      exact absurd hvp (no_path_of_open_empty start goal obst s hA hopen k)
    | some er =>
      obtain ⟨e, rest⟩ := er
      by_cases hegoal : e.2 = goal
      · simp only [if_pos hegoal]
        cases hgv : s.gS e.2 with
        | none => simp
        | some gv =>
          cases hrec : reconstruct start s.cf (gv + 1) e.2 [] with
          | none => simp [hrec]
          | some q => simp [hrec]
      · simp only [if_neg hegoal]
        cases hgc : s.gS e.2 with
        | none => simp
        | some gcur =>
          exact ih _ (step_pres start goal obst s e rest gcur hA hpop hegoal hgc) hex

/-! ### Termination: a three-component lexicographic measure -/

/-- All cells whose score the search can ever set: the grid plus the
start cell (the only possibly out-of-bounds scored cell). -/
def univ_cells (start : Cell) : Finset Cell :=
  ((Finset.Icc (0 : ℤ) 71) ×ˢ (Finset.Icc (0 : ℤ) 71)) ∪ {start}

/-- Number of never-scored cells. -/
def measure1 (start : Cell) (s : AState) : ℕ :=
  ((univ_cells start).filter (fun c => s.gS c = none)).card

/-- Total of all scores. -/
def measure2 (start : Cell) (s : AState) : ℕ :=
  Finset.sum (univ_cells start) (fun c => (s.gS c).getD 0)

/-- Frontier size. -/
def measure3 (s : AState) : ℕ := s.openL.length

lemma mem_univ_cells {start c : Cell} : c ∈ univ_cells start ↔ inBounds c ∨ c = start := by
  unfold univ_cells
  rw [Finset.mem_union, Finset.mem_product, Finset.mem_singleton]
  unfold inBounds GRID_SIZE
  rw [Finset.mem_Icc, Finset.mem_Icc]
  constructor
  · rintro (⟨⟨h1, h2⟩, h3, h4⟩ | h)
    · exact Or.inl ⟨h1, by omega, h3, by omega⟩
    · exact Or.inr h
  · rintro (⟨h1, h2, h3, h4⟩ | h)
    · exact Or.inl ⟨⟨h1, by omega⟩, h3, by omega⟩
    · exact Or.inr h

lemma pushState_gS (goal current : Cell) (gcur : ℕ) (s : AState) (n : Cell) :
    ∀ c, (pushState goal current gcur s n).gS c =
      if c = n then some (gcur + 1) else s.gS c := by
  intro c
  by_cases hc : c = n
  · subst hc; simp [pushState, Function.update_same]
  · simp [pushState, Function.update_noteq hc, hc]

/-- Strict decrease of `(measure1, measure2)` lexicographically. -/
def measLt (start : Cell) (t s : AState) : Prop :=
  measure1 start t < measure1 start s ∨
    (measure1 start t = measure1 start s ∧ measure2 start t < measure2 start s)

lemma relaxOne_meas (start goal current : Cell) (obst : List Cell) (gcur : ℕ)
    (s : AState) (n : Cell) :
    relaxOne goal current obst gcur s n = s ∨
    measLt start (relaxOne goal current obst gcur s n) s := by
  rcases relaxOne_cases goal current obst gcur s n with ⟨he, -⟩ | ⟨he, hn, hcase⟩
  · exact Or.inl he
  · right
    rw [he]
    have hnu : n ∈ univ_cells start := mem_univ_cells.mpr (Or.inl hn.1)
    rcases hcase with h0 | ⟨old, hold, hlt⟩
    · -- fresh key: one fewer unscored cell
      left
      unfold measure1
      have hfeq : (univ_cells start).filter
            (fun c => (pushState goal current gcur s n).gS c = none) =
          ((univ_cells start).filter (fun c => s.gS c = none)).erase n := by
        ext c
        rw [Finset.mem_erase, Finset.mem_filter, Finset.mem_filter]
        rw [pushState_gS]
        by_cases hc : c = n
        · subst hc
          simp
        · rw [if_neg hc]
          constructor
          · rintro ⟨h1, h2⟩
            exact ⟨hc, h1, h2⟩
          · rintro ⟨-, h1, h2⟩
            exact ⟨h1, h2⟩
      rw [hfeq]
      exact Finset.card_erase_lt_of_mem (Finset.mem_filter.mpr ⟨hnu, h0⟩)
    · -- strictly better score for an existing key
      right
      constructor
      · unfold measure1
        have hiff : ∀ c ∈ univ_cells start,
            ((pushState goal current gcur s n).gS c = none) ↔ (s.gS c = none) := by
          intro c _
          rw [pushState_gS]
          by_cases hc : c = n
          · subst hc
            rw [if_pos rfl, hold]
            simp
          · rw [if_neg hc]
        rw [Finset.filter_congr hiff]
      · unfold measure2
        have hfun : (fun c => ((pushState goal current gcur s n).gS c).getD 0) =
            Function.update (fun c => (s.gS c).getD 0) n (gcur + 1) := by
          funext c
          by_cases hc : c = n
          · subst hc
            rw [pushState_gS, if_pos rfl, Function.update_same]
            rfl
          · rw [pushState_gS, if_neg hc, Function.update_noteq hc]
        rw [hfun, Finset.sum_update_of_mem hnu]
        have horig : Finset.sum (univ_cells start) (fun c => (s.gS c).getD 0) =
            (s.gS n).getD 0 + Finset.sum ((univ_cells start).erase n)
              (fun c => (s.gS c).getD 0) := (Finset.add_sum_erase _ _ hnu).symm
        rw [horig, hold, Finset.sdiff_singleton_eq_erase]
        show gcur + 1 + _ < old + _
        omega

lemma measLt_trans {start : Cell} {a b c : AState} (h1 : measLt start a b)
    (h2 : measLt start b c) : measLt start a c := by
  unfold measLt at *
  omega

lemma foldl_relax_meas (start goal current : Cell) (obst : List Cell) (gcur : ℕ) :
    ∀ (ns : List Cell) (s : AState),
      ns.foldl (relaxOne goal current obst gcur) s = s ∨
      measLt start (ns.foldl (relaxOne goal current obst gcur) s) s := by
  intro ns
  induction ns with
  | nil => intro s; exact Or.inl rfl
  | cons n ns ih =>
    intro s
    rcases relaxOne_meas start goal current obst gcur s n with he | hlt
    · rw [List.foldl_cons, he]
      exact ih s
    · rw [List.foldl_cons]
      rcases ih (relaxOne goal current obst gcur s n) with he2 | hlt2
      · rw [he2]
        exact Or.inr hlt
      · exact Or.inr (measLt_trans hlt2 hlt)

lemma step_meas (start goal : Cell) (obst : List Cell) (s : AState) (e : ℕ × Cell)
    (rest : List (ℕ × Cell)) (gcur : ℕ) (hpop : popMin s.openL = some (e, rest)) :
    measLt start (expand goal e.2 obst gcur ⟨rest, s.gS, s.cf⟩) s ∨
    (measure1 start (expand goal e.2 obst gcur ⟨rest, s.gS, s.cf⟩) = measure1 start s ∧
     measure2 start (expand goal e.2 obst gcur ⟨rest, s.gS, s.cf⟩) = measure2 start s ∧
     measure3 (expand goal e.2 obst gcur ⟨rest, s.gS, s.cf⟩) < measure3 s) := by
  obtain ⟨hmem, -, hrr⟩ := popMin_spec hpop
  have hm1 : measure1 start (⟨rest, s.gS, s.cf⟩ : AState) = measure1 start s := rfl
  have hm2 : measure2 start (⟨rest, s.gS, s.cf⟩ : AState) = measure2 start s := rfl
  have hm3 : measure3 (⟨rest, s.gS, s.cf⟩ : AState) < measure3 s := by
    unfold measure3
    have := length_eraseEntry hmem
    rw [hrr]
    show (eraseEntry s.openL e).length < s.openL.length
    omega
  show measLt start ((neighborsOf e.2).foldl (relaxOne goal e.2 obst gcur) ⟨rest, s.gS, s.cf⟩) s ∨ _
  rcases foldl_relax_meas start goal e.2 obst gcur (neighborsOf e.2) ⟨rest, s.gS, s.cf⟩ with
    he | hlt
  · right
    rw [show expand goal e.2 obst gcur ⟨rest, s.gS, s.cf⟩ =
      (neighborsOf e.2).foldl (relaxOne goal e.2 obst gcur) ⟨rest, s.gS, s.cf⟩ from rfl, he]
    exact ⟨hm1, hm2, hm3⟩
  · left
    unfold measLt at hlt ⊢
    rw [hm1, hm2] at hlt
    exact hlt

lemma aStar_term_aux (start goal : Cell) (obst : List Cell) :
    ∀ s : AState, AInv start goal obst s →
      ∃ fuel, (aStarLoop start goal obst fuel s).isSome := by
  have hwf : WellFounded (fun a b : ℕ × ℕ × ℕ =>
      Prod.Lex (· < ·) (Prod.Lex (· < ·) (· < ·)) a b) :=
    (Nat.lt_wfRel.wf).prod_lex ((Nat.lt_wfRel.wf).prod_lex Nat.lt_wfRel.wf)
  have main : ∀ t : ℕ × ℕ × ℕ, ∀ s : AState, AInv start goal obst s →
      (measure1 start s, measure2 start s, measure3 s) = t →
      ∃ fuel, (aStarLoop start goal obst fuel s).isSome := by
    intro t
    refine @WellFounded.induction _ _ hwf
      (fun t => ∀ s : AState, AInv start goal obst s →
        (measure1 start s, measure2 start s, measure3 s) = t →
        ∃ fuel, (aStarLoop start goal obst fuel s).isSome) t ?_
    rintro x ihx s hA rfl
    cases hpop : popMin s.openL with
    | none =>
      refine ⟨1, ?_⟩
      rw [aStarLoop, hpop]
      rfl
    | some er =>
      obtain ⟨e, rest⟩ := er
      obtain ⟨hmem, -, -⟩ := popMin_spec hpop
      obtain ⟨gv, hgv⟩ := hA.base.open_dom e hmem
      by_cases hegoal : e.2 = goal
      · refine ⟨1, ?_⟩
        obtain ⟨q, hrec, -⟩ :=
          reconstruct_sound start goal obst s hA.base (gv + 1) e.2 gv [] hgv (le_refl _)
        rw [aStarLoop, hpop]
        simp only [if_pos hegoal, hgv, hrec]
        rfl
      · have hA2 := step_pres start goal obst s e rest gv hA hpop hegoal hgv
        have hdec : Prod.Lex (· < ·) (Prod.Lex (· < ·) (· < ·))
            (measure1 start (expand goal e.2 obst gv ⟨rest, s.gS, s.cf⟩),
             measure2 start (expand goal e.2 obst gv ⟨rest, s.gS, s.cf⟩),
             measure3 (expand goal e.2 obst gv ⟨rest, s.gS, s.cf⟩))
            (measure1 start s, measure2 start s, measure3 s) := by
          rcases step_meas start goal obst s e rest gv hpop with hlt | ⟨h1, h2, h3⟩
          · rcases hlt with h1 | ⟨h1, h2⟩
            · exact Prod.Lex.left _ _ h1
            · rw [h1]
              exact Prod.Lex.right _ (Prod.Lex.left _ _ h2)
          · rw [h1, h2]
            exact Prod.Lex.right _ (Prod.Lex.right _ h3)
        obtain ⟨f, hf⟩ := ihx _ hdec _ hA2 rfl
        refine ⟨f + 1, ?_⟩
        rw [aStarLoop, hpop]
        simp only [if_neg hegoal, hgv]
        exact hf
  intro s hA
  exact main _ s hA rfl

/-! ### Relating list paths and `VPath` -/

lemma chain_manhattan_le : ∀ (q : List Cell) (a b : Cell), q.Chain' adjacent →
    q.head? = some a → q.getLast? = some b → heuristic a b + 1 ≤ q.length := by
  intro q
  induction q with
  | nil =>
    intro a b _ hh _
    simp at hh
  | cons x t ih =>
    intro a b hc hh hl
    simp only [List.head?_cons, Option.some.injEq] at hh
    subst hh
    cases t with
    | nil =>
      simp only [List.getLast?_singleton, Option.some.injEq] at hl
      subst hl
      simp [heuristic_self]
    | cons y t2 =>
      have hadj : adjacent x y := (List.chain'_cons.mp hc).1
      have hc2 : List.Chain' adjacent (y :: t2) := (List.chain'_cons.mp hc).2
      have hl2 : (y :: t2).getLast? = some b := by
        rw [List.getLast?_cons_cons] at hl
        exact hl
      have hih := ih y b hc2 rfl hl2
      have htr := heuristic_triangle x y b
      have h1 : heuristic x y = 1 := heuristic_adjacent hadj
      simp only [List.length_cons] at hih ⊢
      omega

lemma staircase_path (a : Cell) : ∀ (m : ℕ) (b : Cell), inBounds a → inBounds b →
    heuristic a b = m → VPath a [] b m := by
  intro m
  induction m with
  | zero =>
    intro b ha hb hm
    have hab : a = b := by
      unfold heuristic at hm
      rw [Prod.ext_iff]
      omega
    subst hab
    exact VPath.nil
  | succ m ih =>
    intro b ha hb hm
    obtain ⟨ha1, ha2, ha3, ha4⟩ := ha
    obtain ⟨hb1, hb2, hb3, hb4⟩ := hb
    unfold heuristic at hm
    rcases lt_trichotomy a.1 b.1 with h | h | h
    · have hb2' : inBounds (b.1 - 1, b.2) := ⟨by omega, by omega, hb3, hb4⟩
      have hm2 : heuristic a (b.1 - 1, b.2) = m := by
        unfold heuristic
        simp only
        omega
      have hadj : adjacent (b.1 - 1, b.2) b := by
        unfold adjacent
        simp only
        omega
      exact VPath.cons (ih (b.1 - 1, b.2) ⟨ha1, ha2, ha3, ha4⟩ hb2' hm2) hadj
        ⟨hb1, hb2, hb3, hb4⟩ (by simp)
    · rcases lt_trichotomy a.2 b.2 with h2 | h2 | h2
      · have hb2' : inBounds (b.1, b.2 - 1) := ⟨hb1, hb2, by omega, by omega⟩
        have hm2 : heuristic a (b.1, b.2 - 1) = m := by
          unfold heuristic
          simp only
          omega
        have hadj : adjacent (b.1, b.2 - 1) b := by
          unfold adjacent
          simp only
          omega
        exact VPath.cons (ih (b.1, b.2 - 1) ⟨ha1, ha2, ha3, ha4⟩ hb2' hm2) hadj
          ⟨hb1, hb2, hb3, hb4⟩ (by simp)
      · exfalso
        omega
      · have hb2' : inBounds (b.1, b.2 + 1) := ⟨hb1, hb2, by omega, by omega⟩
        have hm2 : heuristic a (b.1, b.2 + 1) = m := by
          unfold heuristic
          simp only
          omega
        have hadj : adjacent (b.1, b.2 + 1) b := by
          unfold adjacent
          simp only
          omega
        exact VPath.cons (ih (b.1, b.2 + 1) ⟨ha1, ha2, ha3, ha4⟩ hb2' hm2) hadj
          ⟨hb1, hb2, hb3, hb4⟩ (by simp)
    · have hb2' : inBounds (b.1 + 1, b.2) := ⟨by omega, by omega, hb3, hb4⟩
      have hm2 : heuristic a (b.1 + 1, b.2) = m := by
        unfold heuristic
        simp only
        omega
      have hadj : adjacent (b.1 + 1, b.2) b := by
        unfold adjacent
        simp only
        omega
      exact VPath.cons (ih (b.1 + 1, b.2) ⟨ha1, ha2, ha3, ha4⟩ hb2' hm2) hadj
        ⟨hb1, hb2, hb3, hb4⟩ (by simp)

lemma validSeq_toVPath (a : Cell) (obst : List Cell) :
    ∀ (q : List Cell) (b : Cell), ValidSeq a obst q b → VPath a obst b (q.length - 1) := by
  intro q
  induction q using List.reverseRecOn with
  | nil =>
    intro b h
    obtain ⟨hh, -, -, -⟩ := h
    simp [ValidSeq] at hh
  | append_singleton l z ih =>
    intro b h
    obtain ⟨hh, hl, hc, hmem⟩ := h
    have hzb : z = b := by
      rw [List.getLast?_concat] at hl
      exact Option.some.inj hl
    subst hzb
    cases l with
    | nil =>
      simp only [List.nil_append, List.head?_cons, Option.some.injEq] at hh
      subst hh
      exact VPath.nil
    | cons w t =>
      have hh2 : w = a := by
        simp only [List.cons_append, List.head?_cons, Option.some.injEq] at hh
        exact hh
      subst hh2
      rw [List.chain'_append] at hc
      obtain ⟨hc1, -, hjunc⟩ := hc
      obtain ⟨u, hu⟩ : ∃ u, (w :: t).getLast? = some u := by
        cases hgl : (w :: t).getLast? with
        | none => simp at hgl
        | some u => exact ⟨u, rfl⟩
      have hadj : adjacent u z := by
        refine hjunc u ?_ z rfl
        rw [hu]
        rfl
      have hzval := hmem z (by simp)
      have hvs : ValidSeq w obst (w :: t) u := by
        refine ⟨rfl, hu, hc1, ?_⟩
        intro c hc3
        rw [List.tail_cons] at hc3
        exact hmem c (by simp [hc3])
      have hvp := VPath.cons (ih u hvs) hadj hzval.1 hzval.2
      have hlen : ((w :: t) ++ [z]).length - 1 = (w :: t).length - 1 + 1 := by
        simp
      rw [hlen]
      exact hvp

/-! ### C1, C2, C10: the search's contract -/

/-- C1: a successful `a_star` run returns a sequence from `a` to `b`, all
cells in bounds, consecutive cells 4-adjacent, and no cell except
possibly `a` blocked. -/
theorem a_star_path_valid (fuel : ℕ) (a b : Cell) (obst : List Cell) (p : List Cell)
    (ha : inBounds a) (_hb : inBounds b)
    (h : a_star fuel a b obst = some (some p)) :
    p.head? = some a ∧ p.getLast? = some b ∧ p.Chain' adjacent ∧
    (∀ c ∈ p, inBounds c) ∧ ∀ c ∈ p, c ≠ a → c ∉ obst := by
  obtain ⟨⟨hh, hl, hc, hmem⟩, -⟩ :=
    aStarLoop_main a b obst fuel (initState a) p (AInv_init a b obst) h
  refine ⟨hh, hl, hc, ?_, ?_⟩
  · intro c hcp
    rcases hmem c hcp with rfl | ⟨hin, -⟩
    · exact ha
    · exact hin
  · intro c hcp hca
    rcases hmem c hcp with rfl | ⟨-, hout⟩
    · exact absurd rfl hca
    · exact hout

/-- Witness for C1: a leg detouring around a blocked cell. -/
theorem a_star_path_valid_witness :
    ([(0, 0), (0, 1), (1, 1), (2, 1), (2, 0)] : List Cell).head? = some (0, 0) ∧
    ([(0, 0), (0, 1), (1, 1), (2, 1), (2, 0)] : List Cell).getLast? = some (2, 0) ∧
    ([(0, 0), (0, 1), (1, 1), (2, 1), (2, 0)] : List Cell).Chain' adjacent ∧
    (∀ c ∈ ([(0, 0), (0, 1), (1, 1), (2, 1), (2, 0)] : List Cell), inBounds c) ∧
    ∀ c ∈ ([(0, 0), (0, 1), (1, 1), (2, 1), (2, 0)] : List Cell), c ≠ (0, 0) →
      c ∉ ([(1, 0)] : List Cell) :=
  a_star_path_valid 100 (0, 0) (2, 0) [(1, 0)] _ (by decide) (by decide) (by decide)

/-- C10: on every input, the search loop and the predecessor-link
reconstruction terminate (the fuelled embedding completes — outer `none`
marks fuel exhaustion and never occurs with enough fuel). -/
theorem a_star_terminates (start goal : Cell) (obst : List Cell) :
    ∃ fuel, (a_star fuel start goal obst).isSome :=
  aStar_term_aux start goal obst (initState start) (AInv_init start goal obst)

/-- C2: on an obstacle-free grid the returned path has exactly the
Manhattan length plus one cells, and in general a returned path is no
longer than any valid obstacle-avoiding sequence between the endpoints. -/
theorem a_star_optimal :
    (∀ a b : Cell, inBounds a → inBounds b →
      ∃ fuel p, a_star fuel a b [] = some (some p) ∧ p.length = heuristic a b + 1) ∧
    ∀ (fuel : ℕ) (a b : Cell) (obst : List Cell) (p q : List Cell),
      a_star fuel a b obst = some (some p) → ValidSeq a obst q b →
      p.length ≤ q.length := by
  constructor
  · intro a b ha hb
    obtain ⟨fuel, hfuel⟩ := aStar_term_aux a b [] (initState a) (AInv_init a b [])
    obtain ⟨r, hr⟩ := Option.isSome_iff_exists.mp hfuel
    have hex : ∃ k, VPath a ([] : List Cell) b k :=
      ⟨heuristic a b, staircase_path a (heuristic a b) b ha hb rfl⟩
    cases r with
    | none =>
      exact absurd hr (aStarLoop_complete a b [] fuel (initState a) (AInv_init a b []) hex)
    | some p =>
      obtain ⟨⟨hh, hl, hc, -⟩, hmin⟩ :=
        aStarLoop_main a b [] fuel (initState a) p (AInv_init a b []) hr
      have hle := hmin (heuristic a b) (staircase_path a (heuristic a b) b ha hb rfl)
      have hge := chain_manhattan_le p a b hc hh hl
      exact ⟨fuel, p, hr, by omega⟩
  · intro fuel a b obst p q hp hq
    have hvp := validSeq_toVPath a obst q b hq
    obtain ⟨-, hmin⟩ := aStarLoop_main a b obst fuel (initState a) p (AInv_init a b obst) hp
    have hpl := hmin (q.length - 1) hvp
    have hq1 : 1 ≤ q.length := by
      obtain ⟨hh, -⟩ := hq
      cases q with
      | nil => simp at hh
      | cons _ _ => simp
    omega

/-- Witness for C2: an exact Manhattan-length run and a comparison with a
longer valid detour. -/
theorem a_star_optimal_witness :
    (∃ fuel p, a_star fuel ((0, 0) : Cell) (3, 2) [] = some (some p) ∧
      p.length = heuristic (0, 0) (3, 2) + 1) ∧
    ([(0, 0), (1, 0), (2, 0), (3, 0)] : List Cell).length ≤
      ([(0, 0), (0, 1), (1, 1), (1, 0), (2, 0), (3, 0)] : List Cell).length :=
  ⟨a_star_optimal.1 (0, 0) (3, 2) (by decide) (by decide),
   a_star_optimal.2 60 (0, 0) (3, 0) [] _ _ (by decide)
     ⟨rfl, rfl,
      List.Chain.cons (by decide) (List.Chain.cons (by decide) (List.Chain.cons (by decide)
        (List.Chain.cons (by decide) (List.Chain.cons (by decide) List.Chain.nil)))),
      by decide⟩⟩

end PyField
